import Mathlib

/-!
# Verification of the padel scheduler core (`padel_kampplan.py`)

A shallow embedding of the schedule-construction engine of the padel
scheduler, together with proofs of its specified properties.

Conventions of the embedding:

* `Player` is `String`, as in the source (participant names are strings).
  Python compares strings lexicographically by Unicode code point; this is
  modelled by the lexicographic order on `String.data : List Char`, whose
  `Decidable` instances reduce inside the kernel.
* Python `dict` counters (`teammate_counts`, `opp_counts`) are modelled by
  occurrence counts in the list of keys that the source inserts: the value
  stored under a key equals the number of increments performed on it, and
  the dict's key set is the set of distinct inserted keys.
* Python `float` arithmetic in the scorer is modelled by exact rational
  arithmetic (`ℚ`).  All quantities involved are small integers, sums,
  products and two divisions by `n`; `ℚ` is the idealized semantics of the
  formulas the source computes.  `float("inf")` used to initialize the best
  score is modelled by `Option ℚ` with `none` for infinity.
* The pseudo-random generator `random.Random` is library code that is not
  part of this repository; it is modelled from the spec as a deterministic
  state machine seeded by `random.Random(RANDOM_SEED)`.
-/

namespace Padel

/-- Participants are opaque name strings (`Player = str`). -/
abbrev Player := String

/-- A team is a pair of players (`Team = Tuple[Player, Player]`). -/
abbrev Team := Player × Player

/-- Python string `<`: lexicographic comparison by code point, modelled as
the lexicographic order on the underlying character list. -/
def strLt (s t : Player) : Prop :=
  s.data < t.data

instance (s t : Player) : Decidable (strLt s t) :=
  inferInstanceAs (Decidable (s.data < t.data))

/-- Python tuple `<` on pairs: lexicographic componentwise comparison. -/
def teamLt (s t : Team) : Prop :=
  strLt s.1 t.1 ∨ (s.1 = t.1 ∧ strLt s.2 t.2)

instance (s t : Team) : Decidable (teamLt s t) :=
  inferInstanceAs (Decidable (strLt s.1 t.1 ∨ (s.1 = t.1 ∧ strLt s.2 t.2)))

/-- Python `min(a, b)` on two tuples: returns `b` exactly when `b < a`. -/
def minTeam (s t : Team) : Team :=
  if teamLt t s then t else s

/-- Python `max(a, b)` on two tuples: returns `b` exactly when `a < b`. -/
def maxTeam (s t : Team) : Team :=
  if teamLt s t then t else s

/-- The frozen dataclass `Match` with its two teams `a` and `b`. -/
structure Match where
  a : Team
  b : Team
deriving DecidableEq, Repr

instance : Inhabited Match := ⟨⟨("", ""), ("", "")⟩⟩

/-- `Match.players`: the four player slots of the match, in source order. -/
def Match.players (m : Match) : List Player :=
  [m.a.1, m.a.2, m.b.1, m.b.2]

/-- `pair_key(x, y)`: `(x, y) if x < y else (y, x)`. -/
def pair_key (x y : Player) : Player × Player :=
  if strLt x y then (x, y) else (y, x)

/-- `normalize_team`: `tuple(sorted(t))`.  Sorting a 2-tuple swaps the
components exactly when the second is strictly below the first. -/
def normalize_team (t : Team) : Team :=
  if strLt t.2 t.1 then (t.2, t.1) else t

/-- `normalize_match(t1, t2)`: normalize both teams and order them with
`min`/`max` (lexicographic tuple comparison).  The source's locals
`a`/`b` are inlined. -/
def normalize_match (t1 t2 : Team) : Match :=
  { a := minTeam (normalize_team t1) (normalize_team t2),
    b := maxTeam (normalize_team t1) (normalize_team t2) }

/-- First-occurrence de-duplication.  Models both the `seen` set in
`all_team_partitions_of_four` and the `uniq` dict in
`generate_candidate_matches`: in both, the key `(m.a, m.b)` determines the
match `m` entirely, so key membership is membership of `m` itself, and the
resulting collection lists each distinct match once, in first-insertion
order. -/
def dedupKeepFirst (l : List Match) : List Match :=
  l.foldl (fun acc m => if m ∈ acc then acc else acc ++ [m]) []

/-- `all_team_partitions_of_four`: the three 2v2 pairings of a 4-tuple,
normalized, de-duplicated by the `seen` set. -/
def all_team_partitions_of_four (p0 p1 p2 p3 : Player) : List Match :=
  let pairings : List (Team × Team) :=
    [((p0, p1), (p2, p3)), ((p0, p2), (p1, p3)), ((p0, p3), (p1, p2))]
  dedupKeepFirst (pairings.map fun tt => normalize_match tt.1 tt.2)

/-- `itertools.combinations(players, 4)` enumerates exactly the length-4
sublists of `players` (elements in roster order); only the enumeration
order differs, which no claim depends on. -/
def quartets (players : List Player) : List (List Player) :=
  List.sublistsLen 4 players

/-- Dispatch a length-4 combination to `all_team_partitions_of_four`. -/
def partitionsOf (q : List Player) : List Match :=
  match q with
  | [a, b, c, d] => all_team_partitions_of_four a b c d
  | _ => []

/-- `generate_candidate_matches`: all partitions of all 4-combinations,
de-duplicated by the `uniq` dict keyed on `(m.a, m.b)`. -/
def generate_candidate_matches (players : List Player) : List Match :=
  dedupKeepFirst ((quartets players).flatMap partitionsOf)

/-- `perfect_possible(n)`: `(n * (n - 1)) % 4 == 0`. -/
def perfect_possible (n : ℕ) : Bool :=
  (n * (n - 1)) % 4 == 0

/-- `min_for_teammates = math.ceil((n * (n - 1) / 2) / 2)`.  For the
relevant range the float arithmetic is exact (`n * (n - 1)` is even and
small), so this is the ceiling of `C(n,2) / 2`, i.e. `(C(n,2) + 1) / 2`
in integer arithmetic. -/
def min_for_teammates (n : ℕ) : ℕ :=
  (n * (n - 1) / 2 + 1) / 2

/-- `base = n // math.gcd(n, 4)`. -/
def base (n : ℕ) : ℕ :=
  n / Nat.gcd n 4

/-- `choose_match_count(n)`, returning `(M, perfect_mode)`. -/
def choose_match_count (n : ℕ) : ℕ × Bool :=
  if perfect_possible n then (n * (n - 1) / 4, true)
  else
    let M := max (base n) (min_for_teammates n)
    (if M % base n ≠ 0 then M + (base n - M % base n) else M, false)

/-- Scoring weights, exact rational values of the module constants. -/
def W_PLAY_BALANCE : ℚ := 10

def W_TEAMMATE_MISSING : ℚ := 25

def W_TEAMMATE_REPEAT : ℚ := 6

def W_OPP_REPEAT : ℚ := 2

def W_CONSEC_REST : ℚ := 1.2

def W_PERFECT_DEVIATION : ℚ := 40

/-- The mutable per-loop state of `score_schedule`'s match loop: the
`plays` and `rest_streak` dicts (total maps defaulting to the
initialized zeros) and the accumulated `rest_streak_pen`. -/
structure ScanState where
  plays : Player → ℕ
  streak : Player → ℕ
  pen : ℚ

attribute [ext] ScanState

/-- The body of the inner `for p in players` loop of `score_schedule`
(lines 170–177): played players bump `plays` and reset their streak;
resting players extend their streak and, once it reaches 2, add
`streak - 1` to the penalty. -/
def scanPlayer (m : Match) (st : ScanState) (p : Player) : ScanState :=
  if p ∈ m.players then
    { st with
      plays := Function.update st.plays p (st.plays p + 1),
      streak := Function.update st.streak p 0 }
  else
    { st with
      streak := Function.update st.streak p (st.streak p + 1),
      pen :=
        if 2 ≤ st.streak p + 1 then st.pen + (((st.streak p + 1 : ℕ) : ℚ) - 1)
        else st.pen }

/-- One iteration of the `for m in schedule` loop over all players. -/
def scanMatch (players : List Player) (st : ScanState) (m : Match) : ScanState :=
  players.foldl (scanPlayer m) st

/-- The keys inserted into the `teammate_counts` dict, one `pair_key`
per team per match (lines 179–182); the dict's value at a key is the
number of insertions, i.e. the count of the key in this list. -/
def teammateKeys (schedule : List Match) : List (Player × Player) :=
  schedule.flatMap fun m => [pair_key m.a.1 m.a.2, pair_key m.b.1 m.b.2]

/-- The keys inserted into the `opp_counts` dict: the four cross pairs
`for x in m.a for y in m.b` (lines 184–186). -/
def oppKeys (schedule : List Match) : List (Player × Player) :=
  schedule.flatMap fun m =>
    [pair_key m.a.1 m.b.1, pair_key m.a.1 m.b.2,
     pair_key m.a.2 m.b.1, pair_key m.a.2 m.b.2]

/-- `all_pairs` (line 194): `pair_key(players[i], players[j])` for all
`i < j`, as the standard recursion over the roster list. -/
def all_pairs : List Player → List (Player × Player)
  | [] => []
  | p :: ps => (ps.map fun q => pair_key p q) ++ all_pairs ps

/-- The body of the `for pk in all_pairs` loop (lines 199–205),
accumulating `(missing, deviation_from_one, repeats)`.  `max(0, c - 1)`
is truncated subtraction on `ℕ`; `abs(c - 1)` is `Int.natAbs`. -/
def pairStep (tk : List (Player × Player)) (perfect_mode : Bool)
    (acc : ℕ × ℕ × ℕ) (pk : Player × Player) : ℕ × ℕ × ℕ :=
  let c := tk.count pk
  (if c = 0 then acc.1 + 1 else acc.1,
   if perfect_mode then acc.2.1 + ((c : ℤ) - 1).natAbs else acc.2.1,
   acc.2.2 + (c - 1))

/-- `score_schedule` (lines 158–220), with Python floats modelled as
exact rationals.  The `opp_counts.values()` sum iterates the distinct
inserted keys (`dedup`), reading the final count of each. -/
def score_schedule (schedule : List Match) (players : List Player)
    (perfect_mode : Bool) : ℚ :=
  let n := players.length
  let st := schedule.foldl (scanMatch players) ⟨fun _ => 0, fun _ => 0, 0⟩
  let play_vals := players.map fun p => st.plays p
  let mean_play : ℚ := (play_vals.sum : ℚ) / (n : ℚ)
  let var_play : ℚ := (play_vals.map fun v => ((v : ℚ) - mean_play) ^ 2).sum / (n : ℚ)
  let tk := teammateKeys schedule
  let mdr := (all_pairs players).foldl (pairStep tk perfect_mode) (0, 0, 0)
  let missing := mdr.1
  let deviation_from_one := mdr.2.1
  let repeats := mdr.2.2
  let ok := oppKeys schedule
  let opp_repeats := (ok.dedup.map fun pk => ok.count pk - 1).sum
  let total :=
    W_PLAY_BALANCE * var_play + W_TEAMMATE_MISSING * (missing : ℚ) ^ 2 +
      W_TEAMMATE_REPEAT * (repeats : ℚ) + W_OPP_REPEAT * (opp_repeats : ℚ) +
      W_CONSEC_REST * st.pen
  if perfect_mode then total + W_PERFECT_DEVIATION * (deviation_from_one : ℚ) else total

/-! Specification-side quantities for the scorer, each defined
independently of the interleaved loop state. -/

/-- Number of matches of the schedule in which `p` plays. -/
def playsOf (schedule : List Match) (p : Player) : ℕ :=
  (schedule.filter fun m => decide (p ∈ m.players)).length

/-- Variance of the play-count vector across the roster. -/
def play_variance (schedule : List Match) (players : List Player) : ℚ :=
  let n := players.length
  let vals := players.map fun p => playsOf schedule p
  let mean : ℚ := (vals.sum : ℚ) / (n : ℚ)
  (vals.map fun v => ((v : ℚ) - mean) ^ 2).sum / (n : ℚ)

/-- How many times a pair appears as teammates across the schedule. -/
def teammateCount (schedule : List Match) (pk : Player × Player) : ℕ :=
  (teammateKeys schedule).count pk

/-- Number of roster pairs never appearing as teammates. -/
def missing_pairs (schedule : List Match) (players : List Player) : ℕ :=
  ((all_pairs players).filter fun pk => decide (teammateCount schedule pk = 0)).length

/-- Sum over roster pairs of `max(0, count - 1)`. -/
def teammate_repeats (schedule : List Match) (players : List Player) : ℕ :=
  ((all_pairs players).map fun pk => teammateCount schedule pk - 1).sum

/-- Sum over roster pairs of `|count - 1|`. -/
def deviation_from_one_spec (schedule : List Match) (players : List Player) : ℕ :=
  ((all_pairs players).map fun pk => ((teammateCount schedule pk : ℤ) - 1).natAbs).sum

/-- Sum over distinct opponent pairs of `max(0, count - 1)`. -/
def opp_repeats_spec (schedule : List Match) : ℕ :=
  ((oppKeys schedule).dedup.map fun pk => (oppKeys schedule).count pk - 1).sum

/-- One step of the per-participant rest-streak accumulator: on an
absence the streak grows to `k` and, when `k ≥ 2`, the penalty grows by
`k - 1`; playing resets the streak. -/
def restStep (acc : ℕ × ℚ) (absent : Bool) : ℕ × ℚ :=
  if absent then
    (acc.1 + 1,
     if 2 ≤ acc.1 + 1 then acc.2 + (((acc.1 + 1 : ℕ) : ℚ) - 1) else acc.2)
  else (0, acc.2)

/-- Total rest-streak penalty of one participant's absence sequence. -/
def restPenalty (absences : List Bool) : ℚ :=
  (absences.foldl restStep (0, 0)).2

/-- The absence indicator sequence of a participant along the schedule. -/
def absentIn (schedule : List Match) (p : Player) : List Bool :=
  schedule.map fun m => decide (p ∉ m.players)

/-- The rest-streak penalty summed over the roster, participant by
participant. -/
def rest_penalty_spec (schedule : List Match) (players : List Player) : ℚ :=
  (players.map fun p => restPenalty (absentIn schedule p)).sum

/-! The stochastic local search (`improve_schedule` / `build_schedule`)
and its configuration constants. -/

def RANDOM_SEED : ℕ := 42

def SEARCH_RESTARTS : ℕ := 180

def LOCAL_STEPS : ℕ := 3500

def CANDIDATE_SAMPLE : ℕ := 1200

/-- Modelled from the spec: Python's `random.Random` (standard-library
code, not part of this repository).  The spec requires only a "single
seeded pseudo-random source" making runs reproducible; it is modelled
as a deterministic state machine with a 64-bit congruential step. -/
structure PyRandom where
  state : ℕ
deriving DecidableEq, Repr

/-- Modelled from the spec: `random.Random(seed)` initializes the
generator deterministically from the seed alone.  The `entropy`
argument models the ambient OS randomness that an *unseeded* generator
would consume; a seeded generator ignores it. -/
def Random_new (entropy : ℕ) (seed : ℕ) : PyRandom :=
  ⟨seed % 2 ^ 64⟩

/-- Modelled from the spec: one step of the pseudo-random stream. -/
def PyRandom.next (r : PyRandom) : ℕ × PyRandom :=
  ((r.state * 6364136223846793005 + 1442695040888963407) % 2 ^ 64 / 2 ^ 33,
   ⟨(r.state * 6364136223846793005 + 1442695040888963407) % 2 ^ 64⟩)

/-- Modelled from the spec: `rng.randrange(n)` draws uniformly below `n`. -/
def PyRandom.randrange (r : PyRandom) (n : ℕ) : ℕ × PyRandom :=
  ((r.next.1 % n, r.next.2))

/-- Modelled from the spec: `rng.choice(l)` picks one element of `l`. -/
def PyRandom.choice (r : PyRandom) (l : List Match) : Match × PyRandom :=
  (l.getD (r.randrange l.length).1 default, (r.randrange l.length).2)

/-- Modelled from the spec: `rng.sample(l, k)` — "downsampled once
(uniformly, via the same seeded source)": `k` draws without
replacement. -/
def PyRandom.sample (r : PyRandom) (l : List Match) : ℕ → List Match × PyRandom
  | 0 => ([], r)
  | k + 1 =>
    let i := (r.randrange l.length).1
    let r' := (r.randrange l.length).2
    let rest := PyRandom.sample r' (l.eraseIdx i) k
    (l.getD i default :: rest.1, rest.2)

/-- The loop body of `improve_schedule` (lines 237–244): replace one
uniformly chosen slot by one uniformly chosen candidate and keep the
mutation only on strict improvement.  State: `(best, best_score, rng)`. -/
def improveStep (candidates : List Match) (players : List Player)
    (perfect_mode : Bool) (acc : List Match × ℚ × PyRandom) (_i : ℕ) :
    List Match × ℚ × PyRandom :=
  let ir := acc.2.2.randrange acc.1.length
  let cr := ir.2.choice candidates
  let new := acc.1.set ir.1 cr.1
  let s := score_schedule new players perfect_mode
  if s < acc.2.1 then (new, s, cr.2) else (acc.1, acc.2.1, cr.2)

/-- `improve_schedule` (lines 226–246), returning the improved schedule
together with the advanced generator state (the source mutates the
shared `rng` object). -/
def improve_schedule (init : List Match) (candidates : List Match)
    (players : List Player) (perfect_mode : Bool) (steps : ℕ) (rng : PyRandom) :
    List Match × PyRandom :=
  let r := (List.range steps).foldl (improveStep candidates players perfect_mode)
    (init, score_schedule init players perfect_mode, rng)
  (r.1, r.2.2)

/-- `best_score = float("inf")` and its strict comparison: `none` is
`+∞`, beaten by every finite score. -/
def ltInf (s : ℚ) : Option ℚ → Bool
  | none => true
  | some v => decide (s < v)

/-- `init = [rng.choice(candidates) for _ in range(M)]` (line 263). -/
def drawInit (rng : PyRandom) (candidates : List Match) : ℕ → List Match × PyRandom
  | 0 => ([], rng)
  | k + 1 =>
    let cr := rng.choice candidates
    let rest := drawInit cr.2 candidates k
    (cr.1 :: rest.1, rest.2)

/-- One restart of `build_schedule` (lines 262–267): draw a fresh random
schedule, hill-climb it, keep it if it beats the best so far.  State:
`(best_schedule, best_score, rng)` with `none` for the initial `inf`. -/
def restartStep (candidates : List Match) (players : List Player) (M : ℕ)
    (perfect_mode : Bool) (acc : List Match × Option ℚ × PyRandom) (_i : ℕ) :
    List Match × Option ℚ × PyRandom :=
  let dr := drawInit acc.2.2 candidates M
  let imp := improve_schedule dr.1 candidates players perfect_mode LOCAL_STEPS dr.2
  let s := score_schedule imp.1 players perfect_mode
  if ltInf s acc.2.1 then (imp.1, some s, imp.2) else (acc.1, acc.2.1, imp.2)

/-- The candidate list and generator state entering the restart loop
(lines 253–257): downsample only above `CANDIDATE_SAMPLE`. -/
def candidatesAfterSample (entropy : ℕ) (players : List Player) :
    List Match × PyRandom :=
  let rng := Random_new entropy RANDOM_SEED
  let cand := generate_candidate_matches players
  if cand.length > CANDIDATE_SAMPLE then rng.sample cand CANDIDATE_SAMPLE
  else (cand, rng)

/-- `build_schedule` (lines 249–269). -/
def build_schedule (entropy : ℕ) (players : List Player) :
    List Match × ℕ × Bool :=
  let n := players.length
  let Mpm := choose_match_count n
  let cr := candidatesAfterSample entropy players
  let final := (List.range SEARCH_RESTARTS).foldl
    (restartStep cr.1 players Mpm.1 Mpm.2) ([], none, cr.2)
  (final.1, Mpm.1, Mpm.2)

end Padel

namespace Padel

/-- **C1.** Within `[4,8]`, `perfect_possible` holds exactly for
`N ∈ {4,5,8}`, and in those cases `choose_match_count` returns
`(N*(N-1)/4, true)`. -/
theorem C1_perfect_cases (n : ℕ) (h4 : 4 ≤ n) (h8 : n ≤ 8) :
    (perfect_possible n = true ↔ n = 4 ∨ n = 5 ∨ n = 8) ∧
    (perfect_possible n = true → choose_match_count n = (n * (n - 1) / 4, true)) := by
  interval_cases n <;> refine ⟨by decide, fun h => ?_⟩ <;>
    first
    | decide
    | exact absurd h (by decide)

/-- Witness for C1 at `N = 8`. -/
theorem C1_perfect_cases_witness :
    (perfect_possible 8 = true ↔ 8 = 4 ∨ 8 = 5 ∨ 8 = 8) ∧
    (perfect_possible 8 = true → choose_match_count 8 = (8 * (8 - 1) / 4, true)) :=
  C1_perfect_cases 8 (by decide) (by decide)

/-- **C2.** For every `N ∈ [4,8]`, the chosen match count `M` satisfies
`(4*M) % N == 0` (this covers both the perfect and the non-perfect
branch, which are taken respectively for `N ∈ {4,5,8}` and `N ∈ {6,7}`). -/
theorem C2_equal_play_divisibility (n : ℕ) (h4 : 4 ≤ n) (h8 : n ≤ 8) :
    4 * (choose_match_count n).1 % n = 0 := by
  interval_cases n <;> decide

/-- Witness for C2 at `N = 6` (non-perfect branch; `N = 4` exercises the
perfect branch inside the proof of the theorem itself). -/
theorem C2_equal_play_divisibility_witness :
    4 * (choose_match_count 6).1 % 6 = 0 :=
  C2_equal_play_divisibility 6 (by decide) (by decide)

/-- **C3.** For `N ∈ [4,8]` with `perfect_possible N` false (`N ∈ {6,7}`),
`choose_match_count N = (M, false)` where `M` is the least multiple of
`base N` that is at least `min_for_teammates N`; in particular
`choose_match_count 6 = (9, false)`. -/
theorem C3_imperfect_match_count (n : ℕ) (h4 : 4 ≤ n) (h8 : n ≤ 8)
    (hp : perfect_possible n = false) :
    (choose_match_count n).2 = false ∧
    (choose_match_count n).1 % base n = 0 ∧
    min_for_teammates n ≤ (choose_match_count n).1 ∧
    (∀ k, k % base n = 0 → min_for_teammates n ≤ k → (choose_match_count n).1 ≤ k) ∧
    choose_match_count 6 = (9, false) := by
  interval_cases n
  · exact absurd hp (by decide)
  · exact absurd hp (by decide)
  · refine ⟨by decide, by decide, by decide, ?_, by decide⟩
    intro k hk hmin
    have hb : base 6 = 3 := by decide
    have hm : min_for_teammates 6 = 8 := by decide
    rw [hb] at hk
    rw [hm] at hmin
    have : (choose_match_count 6).1 = 9 := by decide
    omega
  · refine ⟨by decide, by decide, by decide, ?_, by decide⟩
    intro k hk hmin
    have hb : base 7 = 7 := by decide
    have hm : min_for_teammates 7 = 11 := by decide
    rw [hb] at hk
    rw [hm] at hmin
    have : (choose_match_count 7).1 = 14 := by decide
    omega
  · exact absurd hp (by decide)

/-- Basic facts about the modelled Python string order. -/
theorem strData_inj {s t : Player} (h : s.data = t.data) : s = t := by
  cases s
  cases t
  exact congrArg String.mk h

theorem strLt_asymm {s t : Player} (h : strLt s t) : ¬ strLt t s := by
  unfold strLt at *
  exact lt_asymm h

theorem strLt_connex {s t : Player} (h1 : ¬ strLt s t) (h2 : ¬ strLt t s) : s = t := by
  unfold strLt at *
  rcases lt_trichotomy s.data t.data with h | h | h
  · exact absurd h h1
  · exact strData_inj h
  · exact absurd h h2

theorem strLt_irrefl (s : Player) : ¬ strLt s s := by
  unfold strLt
  exact lt_irrefl _

theorem teamLt_asymm {s t : Team} (h : teamLt s t) : ¬ teamLt t s := by
  unfold teamLt at *
  rcases h with h | ⟨he, h⟩
  · rintro (h' | ⟨he', h'⟩)
    · exact strLt_asymm h h'
    · rw [he'] at h
      exact strLt_irrefl _ h
  · rintro (h' | ⟨he', h'⟩)
    · rw [he] at h'
      exact strLt_irrefl _ h'
    · exact strLt_asymm h h'

theorem teamLt_connex {s t : Team} (h1 : ¬ teamLt s t) (h2 : ¬ teamLt t s) : s = t := by
  unfold teamLt at *
  push_neg at h1 h2
  have e1 : s.1 = t.1 := strLt_connex h1.1 h2.1
  have e2 : s.2 = t.2 := strLt_connex (h1.2 e1) (h2.2 e1.symm)
  exact Prod.ext e1 e2

theorem minTeam_comm (s t : Team) : minTeam s t = minTeam t s := by
  unfold minTeam
  by_cases h1 : teamLt t s
  · rw [if_pos h1, if_neg (teamLt_asymm h1)]
  · by_cases h2 : teamLt s t
    · rw [if_neg h1, if_pos h2]
    · rw [if_neg h1, if_neg h2]
      exact teamLt_connex h2 h1

theorem maxTeam_comm (s t : Team) : maxTeam s t = maxTeam t s := by
  unfold maxTeam
  by_cases h1 : teamLt s t
  · rw [if_pos h1, if_neg (teamLt_asymm h1)]
  · by_cases h2 : teamLt t s
    · rw [if_neg h1, if_pos h2]
    · rw [if_neg h1, if_neg h2]
      exact teamLt_connex h1 h2

theorem normalize_team_swap (x y : Player) :
    normalize_team (y, x) = normalize_team (x, y) := by
  unfold normalize_team
  by_cases h1 : strLt x y
  · rw [if_pos h1, if_neg (strLt_asymm h1)]
  · by_cases h2 : strLt y x
    · rw [if_neg h1, if_pos h2]
    · rw [if_neg h1, if_neg h2]
      rw [strLt_connex h2 h1]

theorem normalize_match_comm (t1 t2 : Team) :
    normalize_match t1 t2 = normalize_match t2 t1 := by
  unfold normalize_match
  rw [minTeam_comm, maxTeam_comm]

/-- The two teams of a normalized match are the two normalized input
teams, in one of the two orders. -/
theorem normalize_match_teams (t1 t2 : Team) :
    ((normalize_match t1 t2).a = normalize_team t1 ∧
     (normalize_match t1 t2).b = normalize_team t2) ∨
    ((normalize_match t1 t2).a = normalize_team t2 ∧
     (normalize_match t1 t2).b = normalize_team t1) := by
  unfold normalize_match minTeam maxTeam
  by_cases h1 : teamLt (normalize_team t2) (normalize_team t1)
  · right
    rw [if_pos h1, if_neg (teamLt_asymm h1)]
    exact ⟨rfl, rfl⟩
  · by_cases h2 : teamLt (normalize_team t1) (normalize_team t2)
    · left
      rw [if_neg h1, if_pos h2]
      exact ⟨rfl, rfl⟩
    · left
      rw [if_neg h1, if_neg h2]
      exact ⟨rfl, teamLt_connex h2 h1⟩

/-- The component list of a normalized team is a permutation of the
input's components. -/
theorem normalize_team_perm (t : Team) :
    [(normalize_team t).1, (normalize_team t).2].Perm [t.1, t.2] := by
  unfold normalize_team
  by_cases h : strLt t.2 t.1
  · rw [if_pos h]
    exact List.Perm.swap _ _ _
  · rw [if_neg h]

/-- The four player slots of a normalized match are a permutation of the
eight input slots (so no player is ever dropped or invented). -/
theorem normalize_match_players_perm (t1 t2 : Team) :
    (normalize_match t1 t2).players.Perm [t1.1, t1.2, t2.1, t2.2] := by
  have hsplit : ∀ m : Match, m.players = [m.a.1, m.a.2] ++ [m.b.1, m.b.2] := by
    intro m
    rfl
  have h4 : ([t1.1, t1.2] ++ [t2.1, t2.2] : List Player) = [t1.1, t1.2, t2.1, t2.2] := rfl
  rcases normalize_match_teams t1 t2 with ⟨ha, hb⟩ | ⟨ha, hb⟩ <;>
      rw [hsplit, ha, hb, ← h4]
  · exact (normalize_team_perm t1).append (normalize_team_perm t2)
  · exact ((normalize_team_perm t2).append (normalize_team_perm t1)).trans
      List.perm_append_comm

/-- **C8.** All eight orderings of the same two unordered teams yield the
identical canonical `Match`: the construction is invariant under swapping
the two teams and under swapping the members within either team. -/
theorem C8_canonicalization_invariance (w x y z : Player) :
    normalize_match (w, x) (y, z) = normalize_match (y, z) (w, x) ∧
    normalize_match (w, x) (y, z) = normalize_match (x, w) (y, z) ∧
    normalize_match (w, x) (y, z) = normalize_match (w, x) (z, y) ∧
    normalize_match (w, x) (y, z) = normalize_match (x, w) (z, y) ∧
    normalize_match (w, x) (y, z) = normalize_match (y, z) (x, w) ∧
    normalize_match (w, x) (y, z) = normalize_match (z, y) (w, x) ∧
    normalize_match (w, x) (y, z) = normalize_match (z, y) (x, w) := by
  have swapA : ∀ a b c d : Player,
      normalize_match (a, b) (c, d) = normalize_match (b, a) (c, d) := by
    intro a b c d
    unfold normalize_match
    rw [normalize_team_swap a b]
  have swapB : ∀ a b c d : Player,
      normalize_match (a, b) (c, d) = normalize_match (a, b) (d, c) := by
    intro a b c d
    unfold normalize_match
    rw [normalize_team_swap c d]
  refine ⟨normalize_match_comm _ _, swapA w x y z, swapB w x y z, ?_, ?_, ?_, ?_⟩
  · rw [swapA, swapB]
  · rw [normalize_match_comm, swapB]
  · rw [normalize_match_comm, swapA]
  · rw [normalize_match_comm, swapA, swapB]

/-- **C7 (amended).** `normalize_match` performs no disjointness check:
from two teams sharing a player it silently returns a total, canonical
`Match` whose four slots are exactly the input slots rearranged — and
which therefore contains a repeated participant.  No error is raised (the
source defines no `InvalidMatchError`). -/
theorem C7_nondisjoint_silently_produced (t1 t2 : Team) (x : Player)
    (h1 : x = t1.1 ∨ x = t1.2) (h2 : x = t2.1 ∨ x = t2.2) :
    (normalize_match t1 t2).players.Perm [t1.1, t1.2, t2.1, t2.2] ∧
    ¬ (normalize_match t1 t2).players.Nodup := by
  refine ⟨normalize_match_players_perm t1 t2, fun hn => ?_⟩
  have hn' : ([t1.1, t1.2, t2.1, t2.2] : List Player).Nodup :=
    ((normalize_match_players_perm t1 t2).nodup_iff).mp hn
  simp only [List.nodup_cons, List.mem_cons, List.not_mem_nil, or_false,
    List.mem_singleton, List.nodup_nil, and_true] at hn'
  rcases h1 with h1 | h1 <;> rcases h2 with h2 | h2 <;> subst h1 <;> tauto

/-- Witness for C7 (amended) at the concrete overlapping teams
`("A","B")` and `("A","C")`. -/
theorem C7_nondisjoint_silently_produced_witness :
    (normalize_match ("A", "B") ("A", "C")).players.Perm ["A", "B", "A", "C"] ∧
    ¬ (normalize_match ("A", "B") ("A", "C")).players.Nodup :=
  C7_nondisjoint_silently_produced ("A", "B") ("A", "C") "A"
    (Or.inl rfl) (Or.inl rfl)

/-- **C7 (counterexample to the claim as stated).** Constructing a match
from the non-disjoint teams `("A","B")` and `("A","C")` does not fail:
`normalize_match` is total and returns this concrete match, whose player
slots repeat `"A"`. -/
theorem C7_counterexample_no_failure :
    normalize_match ("A", "B") ("A", "C") = { a := ("A", "B"), b := ("A", "C") } ∧
    (normalize_match ("A", "B") ("A", "C")).players = ["A", "B", "A", "C"] ∧
    ¬ (normalize_match ("A", "B") ("A", "C")).players.Nodup := by
  refine ⟨?_, ?_, ?_⟩ <;> decide

theorem teamLt_irrefl (t : Team) : ¬ teamLt t t := by
  unfold teamLt
  rintro (h | ⟨-, h⟩) <;> exact strLt_irrefl _ h

theorem normalize_team_idem (t : Team) :
    normalize_team (normalize_team t) = normalize_team t := by
  unfold normalize_team
  by_cases h : strLt t.2 t.1
  · rw [if_pos h]
    dsimp only
    rw [if_neg (strLt_asymm h)]
  · rw [if_neg h, if_neg h]

theorem minTeam_cases (s t : Team) : minTeam s t = s ∨ minTeam s t = t := by
  unfold minTeam
  split
  · exact Or.inr rfl
  · exact Or.inl rfl

theorem maxTeam_cases (s t : Team) : maxTeam s t = s ∨ maxTeam s t = t := by
  unfold maxTeam
  split
  · exact Or.inr rfl
  · exact Or.inl rfl

/-- The two teams of a normalized match are themselves in canonical
(sorted) form. -/
theorem normalize_match_teams_normalized (t1 t2 : Team) :
    normalize_team (normalize_match t1 t2).a = (normalize_match t1 t2).a ∧
    normalize_team (normalize_match t1 t2).b = (normalize_match t1 t2).b := by
  have ha : (normalize_match t1 t2).a = minTeam (normalize_team t1) (normalize_team t2) := rfl
  have hb : (normalize_match t1 t2).b = maxTeam (normalize_team t1) (normalize_team t2) := rfl
  constructor
  · rw [ha]
    rcases minTeam_cases (normalize_team t1) (normalize_team t2) with h | h <;>
      rw [h, normalize_team_idem]
  · rw [hb]
    rcases maxTeam_cases (normalize_team t1) (normalize_team t2) with h | h <;>
      rw [h, normalize_team_idem]

/-- The two teams of a normalized match are in nondecreasing order. -/
theorem normalize_match_ordered (t1 t2 : Team) :
    ¬ teamLt (normalize_match t1 t2).b (normalize_match t1 t2).a := by
  have ha : (normalize_match t1 t2).a = minTeam (normalize_team t1) (normalize_team t2) := rfl
  have hb : (normalize_match t1 t2).b = maxTeam (normalize_team t1) (normalize_team t2) := rfl
  rw [ha, hb]
  unfold minTeam maxTeam
  by_cases h1 : teamLt (normalize_team t2) (normalize_team t1)
  · rw [if_pos h1, if_neg (teamLt_asymm h1)]
    exact teamLt_asymm h1
  · rw [if_neg h1]
    by_cases h2 : teamLt (normalize_team t1) (normalize_team t2)
    · rw [if_pos h2]
      exact h1
    · rw [if_neg h2]
      exact teamLt_irrefl _

/-- A match whose teams are sorted and in order is a fixpoint of
`normalize_match`. -/
theorem normalize_match_of_canonical (m : Match) (hord : ¬ teamLt m.b m.a)
    (ha : normalize_team m.a = m.a) (hb : normalize_team m.b = m.b) :
    normalize_match m.a m.b = m := by
  unfold normalize_match minTeam maxTeam
  rw [ha, hb, if_neg hord]
  by_cases h2 : teamLt m.a m.b
  · rw [if_pos h2]
  · rw [if_neg h2]
    nth_rewrite 2 [teamLt_connex h2 hord]
    rfl

/-- `normalize_match` is idempotent: already-canonical matches are left
unchanged when re-normalized from their own teams. -/
theorem normalize_match_idem (t1 t2 : Team) :
    normalize_match (normalize_match t1 t2).a (normalize_match t1 t2).b =
      normalize_match t1 t2 :=
  normalize_match_of_canonical _ (normalize_match_ordered t1 t2)
    (normalize_match_teams_normalized t1 t2).1
    (normalize_match_teams_normalized t1 t2).2

/-- Equal normalized matches arise only from the same unordered pair of
normalized teams. -/
theorem normalize_match_eq_imp {t1 t2 s1 s2 : Team}
    (h : normalize_match t1 t2 = normalize_match s1 s2) :
    (normalize_team t1 = normalize_team s1 ∧ normalize_team t2 = normalize_team s2) ∨
    (normalize_team t1 = normalize_team s2 ∧ normalize_team t2 = normalize_team s1) := by
  have ht := normalize_match_teams t1 t2
  have hs := normalize_match_teams s1 s2
  rw [h] at ht
  rcases ht with ⟨ha1, hb1⟩ | ⟨ha1, hb1⟩ <;> rcases hs with ⟨ha2, hb2⟩ | ⟨ha2, hb2⟩
  · exact Or.inl ⟨ha1.symm.trans ha2, hb1.symm.trans hb2⟩
  · exact Or.inr ⟨ha1.symm.trans ha2, hb1.symm.trans hb2⟩
  · exact Or.inr ⟨hb1.symm.trans hb2, ha1.symm.trans ha2⟩
  · exact Or.inl ⟨hb1.symm.trans hb2, ha1.symm.trans ha2⟩

/-- Equal sorted teams arise only from equal unordered pairs. -/
theorem normalize_team_eq_imp {x y x' y' : Player}
    (h : normalize_team (x, y) = normalize_team (x', y')) :
    (x = x' ∧ y = y') ∨ (x = y' ∧ y = x') := by
  unfold normalize_team at h
  dsimp only at h
  split_ifs at h <;> simp only [Prod.mk.injEq] at h <;> tauto

/-- Spelled-out form of `Nodup` for a four-element list. -/
theorem nodup_four_iff {α : Type*} {a b c d : α} :
    ([a, b, c, d] : List α).Nodup ↔
      (a ≠ b ∧ a ≠ c ∧ a ≠ d) ∧ (b ≠ c ∧ b ≠ d) ∧ c ≠ d := by
  simp only [List.nodup_cons, List.mem_cons, List.not_mem_nil, or_false,
    List.mem_singleton, List.nodup_nil, and_true, not_or, ne_eq, not_false_iff]

/-- Spelled-out form of `Nodup` for a three-element list. -/
theorem nodup_three_iff {α : Type*} {x y z : α} :
    ([x, y, z] : List α).Nodup ↔ x ≠ y ∧ x ≠ z ∧ y ≠ z := by
  simp only [List.nodup_cons, List.mem_cons, List.not_mem_nil, or_false,
    List.mem_singleton, List.nodup_nil, and_true, not_or, ne_eq, not_false_iff]
  tauto

/-- For four pairwise distinct players the three 2v2 partitions are
pairwise distinct matches. -/
theorem partitions_pairwise_ne {a b c d : Player} (hab : a ≠ b) (hac : a ≠ c)
    (had : a ≠ d) (hbc : b ≠ c) (hbd : b ≠ d) (hcd : c ≠ d) :
    normalize_match (a, b) (c, d) ≠ normalize_match (a, c) (b, d) ∧
    normalize_match (a, b) (c, d) ≠ normalize_match (a, d) (b, c) ∧
    normalize_match (a, c) (b, d) ≠ normalize_match (a, d) (b, c) := by
  refine ⟨fun h => ?_, fun h => ?_, fun h => ?_⟩ <;>
    rcases normalize_match_eq_imp h with ⟨h1, -⟩ | ⟨h1, -⟩ <;>
      rcases normalize_team_eq_imp h1 with ⟨e1, e2⟩ | ⟨e1, e2⟩ <;> tauto

/-- Membership through the first-occurrence de-duplicating fold. -/
theorem foldl_dedup_mem (l : List Match) :
    ∀ (acc : List Match) (x : Match),
      (x ∈ l.foldl (fun acc m => if m ∈ acc then acc else acc ++ [m]) acc) ↔
        x ∈ acc ∨ x ∈ l := by
  induction l with
  | nil =>
    intro acc x
    simp
  | cons a l ih =>
    intro acc x
    rw [List.foldl_cons]
    by_cases ha : a ∈ acc
    · rw [if_pos ha, ih]
      simp only [List.mem_cons]
      constructor
      · tauto
      · rintro (h | rfl | h) <;> tauto
    · rw [if_neg ha, ih]
      simp only [List.mem_append, List.mem_singleton, List.mem_cons]
      tauto

theorem mem_dedupKeepFirst {l : List Match} {x : Match} :
    x ∈ dedupKeepFirst l ↔ x ∈ l := by
  unfold dedupKeepFirst
  rw [foldl_dedup_mem]
  simp

/-- On a duplicate-free list the de-duplicating fold is the identity. -/
theorem foldl_dedup_of_nodup (l : List Match) :
    ∀ acc : List Match, l.Nodup → (∀ x ∈ l, x ∉ acc) →
      l.foldl (fun acc m => if m ∈ acc then acc else acc ++ [m]) acc = acc ++ l := by
  induction l with
  | nil =>
    intro acc _ _
    simp
  | cons a l ih =>
    intro acc hnd hdisj
    rw [List.foldl_cons, if_neg (hdisj a (List.mem_cons_self a l))]
    have hstep : ∀ x ∈ l, x ∉ acc ++ [a] := by
      intro x hx
      simp only [List.mem_append, List.mem_singleton]
      rintro (h | rfl)
      · exact hdisj x (List.mem_cons_of_mem a hx) h
      · exact (List.nodup_cons.mp hnd).1 hx
    rw [ih (acc ++ [a]) (List.Nodup.of_cons hnd) hstep]
    simp

theorem dedupKeepFirst_eq_self {l : List Match} (h : l.Nodup) :
    dedupKeepFirst l = l := by
  unfold dedupKeepFirst
  rw [foldl_dedup_of_nodup l [] h (by simp)]
  simp

/-- The de-duplicating fold never lengthens the list. -/
theorem foldl_dedup_length (l : List Match) :
    ∀ acc : List Match,
      (l.foldl (fun acc m => if m ∈ acc then acc else acc ++ [m]) acc).length ≤
        acc.length + l.length := by
  induction l with
  | nil =>
    intro acc
    simp
  | cons a l ih =>
    intro acc
    rw [List.foldl_cons]
    by_cases ha : a ∈ acc
    · rw [if_pos ha]
      have := ih acc
      simp only [List.length_cons]
      omega
    · rw [if_neg ha]
      have h := ih (acc ++ [a])
      have hl : (acc ++ [a]).length = acc.length + 1 := by simp
      rw [hl] at h
      simp only [List.length_cons]
      omega

theorem dedupKeepFirst_length_le (l : List Match) :
    (dedupKeepFirst l).length ≤ l.length := by
  unfold dedupKeepFirst
  have := foldl_dedup_length l []
  simpa using this

/-- For four pairwise distinct players `all_team_partitions_of_four`
returns exactly the three distinct partitions (the `seen` set removes
nothing). -/
theorem all_team_partitions_eq {a b c d : Player} (hab : a ≠ b) (hac : a ≠ c)
    (had : a ≠ d) (hbc : b ≠ c) (hbd : b ≠ d) (hcd : c ≠ d) :
    all_team_partitions_of_four a b c d =
      [normalize_match (a, b) (c, d), normalize_match (a, c) (b, d),
       normalize_match (a, d) (b, c)] := by
  obtain ⟨h12, h13, h23⟩ := partitions_pairwise_ne hab hac had hbc hbd hcd
  have hnd : ([normalize_match (a, b) (c, d), normalize_match (a, c) (b, d),
      normalize_match (a, d) (b, c)] : List Match).Nodup :=
    nodup_three_iff.mpr ⟨h12, h13, h23⟩
  unfold all_team_partitions_of_four
  simp only [List.map_cons, List.map_nil]
  exact dedupKeepFirst_eq_self hnd

/-- Two sublists of a duplicate-free list that are permutations of each
other are equal. -/
theorem sublist_perm_eq {α : Type*} (l : List α) :
    ∀ s1 s2 : List α, List.Sublist s1 l → List.Sublist s2 l → l.Nodup →
      s1.Perm s2 → s1 = s2 := by
  induction l with
  | nil =>
    intro s1 s2 h1 h2 _ _
    rw [List.sublist_nil.mp h1, List.sublist_nil.mp h2]
  | cons a l ih =>
    intro s1 s2 h1 h2 hnd hperm
    rcases List.sublist_cons_iff.mp h1 with h1' | ⟨t1, rfl, h1'⟩
    · rcases List.sublist_cons_iff.mp h2 with h2' | ⟨t2, rfl, h2'⟩
      · exact ih s1 s2 h1' h2' (List.Nodup.of_cons hnd) hperm
      · exact absurd (h1'.subset (hperm.mem_iff.mpr (List.mem_cons_self a t2)))
          (List.nodup_cons.mp hnd).1
    · rcases List.sublist_cons_iff.mp h2 with h2' | ⟨t2, rfl, h2'⟩
      · exact absurd (h2'.subset (hperm.mem_iff.mp (List.mem_cons_self a t1)))
          (List.nodup_cons.mp hnd).1
      · rw [ih t1 t2 h1' h2' (List.Nodup.of_cons hnd) hperm.cons_inv]

/-- Two 4-combinations of a duplicate-free roster with the same members
are the same combination. -/
theorem quartets_eq_of_same_mem {players : List Player} (hnd : players.Nodup)
    {q1 q2 : List Player} (h1 : q1 ∈ quartets players) (h2 : q2 ∈ quartets players)
    (hmem : ∀ x, x ∈ q1 ↔ x ∈ q2) : q1 = q2 := by
  obtain ⟨hs1, -⟩ := List.mem_sublistsLen.mp h1
  obtain ⟨hs2, -⟩ := List.mem_sublistsLen.mp h2
  exact sublist_perm_eq players q1 q2 hs1 hs2 hnd
    ((List.perm_ext_iff_of_nodup (hnd.sublist hs1) (hnd.sublist hs2)).mpr hmem)

/-- Every 4-combination is literally a four-element list. -/
theorem quartet_shape {players : List Player} {q : List Player}
    (hq : q ∈ quartets players) : ∃ a b c d, q = [a, b, c, d] := by
  have hlen := (List.mem_sublistsLen.mp hq).2
  rcases q with _ | ⟨a, _ | ⟨b, _ | ⟨c, _ | ⟨d, _ | _⟩⟩⟩⟩ <;> simp at hlen
  exact ⟨a, b, c, d, rfl⟩

/-- The members of any match produced from a quartet are exactly the
quartet's members. -/
theorem mem_atp_cases {a b c d : Player} {m : Match}
    (hm : m ∈ all_team_partitions_of_four a b c d) :
    m = normalize_match (a, b) (c, d) ∨ m = normalize_match (a, c) (b, d) ∨
      m = normalize_match (a, d) (b, c) := by
  unfold all_team_partitions_of_four at hm
  rw [mem_dedupKeepFirst] at hm
  simpa using hm

/-- Every match produced from a quartet has exactly the quartet's four
players (as a permutation of its slots). -/
theorem atp_players_perm {a b c d : Player} {m : Match}
    (hm : m ∈ all_team_partitions_of_four a b c d) :
    m.players.Perm [a, b, c, d] := by
  rcases mem_atp_cases hm with rfl | rfl | rfl
  · exact normalize_match_players_perm (a, b) (c, d)
  · exact (normalize_match_players_perm (a, c) (b, d)).trans
      (List.Perm.cons a (List.Perm.swap b c [d]))
  · exact (normalize_match_players_perm (a, d) (b, c)).trans
      (List.Perm.cons a
        ((List.Perm.swap b d [c]).trans (List.Perm.cons b (List.Perm.swap c d []))))

theorem mem_atp_players {a b c d : Player} {m : Match}
    (hm : m ∈ all_team_partitions_of_four a b c d) :
    ∀ x, x ∈ m.players ↔ x ∈ [a, b, c, d] :=
  fun _ => (atp_players_perm hm).mem_iff

theorem mem_atp_nodup {a b c d : Player} {m : Match} (hab : a ≠ b) (hac : a ≠ c)
    (had : a ≠ d) (hbc : b ≠ c) (hbd : b ≠ d) (hcd : c ≠ d)
    (hm : m ∈ all_team_partitions_of_four a b c d) : m.players.Nodup := by
  rw [(atp_players_perm hm).nodup_iff]
  exact nodup_four_iff.mpr ⟨⟨hab, hac, had⟩, ⟨hbc, hbd⟩, hcd⟩

theorem mem_atp_canonical {a b c d : Player} {m : Match}
    (hm : m ∈ all_team_partitions_of_four a b c d) :
    normalize_match m.a m.b = m := by
  rcases mem_atp_cases hm with rfl | rfl | rfl <;> exact normalize_match_idem _ _

/-- The flat list of candidates (before the `uniq` dict) has no
duplicates when the roster has none. -/
theorem candidates_flat_nodup {players : List Player} (hnd : players.Nodup) :
    ((quartets players).flatMap partitionsOf).Nodup := by
  rw [List.nodup_flatMap]
  constructor
  · intro q hq
    obtain ⟨a, b, c, d, rfl⟩ := quartet_shape hq
    have hqnd : ([a, b, c, d] : List Player).Nodup :=
      hnd.sublist (List.mem_sublistsLen.mp hq).1
    obtain ⟨⟨hab, hac, had⟩, ⟨hbc, hbd⟩, hcd⟩ := nodup_four_iff.mp hqnd
    show (all_team_partitions_of_four a b c d).Nodup
    rw [all_team_partitions_eq hab hac had hbc hbd hcd]
    obtain ⟨h12, h13, h23⟩ := partitions_pairwise_ne hab hac had hbc hbd hcd
    exact nodup_three_iff.mpr ⟨h12, h13, h23⟩
  · have hq_nodup : (quartets players).Nodup := List.nodup_sublistsLen 4 hnd
    refine hq_nodup.imp_of_mem ?_
    intro q1 q2 hq1 hq2 hne
    intro m hm1 hm2
    obtain ⟨a1, b1, c1, d1, rfl⟩ := quartet_shape hq1
    obtain ⟨a2, b2, c2, d2, rfl⟩ := quartet_shape hq2
    have hp1 := mem_atp_players (m := m) hm1
    have hp2 := mem_atp_players (m := m) hm2
    exact hne (quartets_eq_of_same_mem hnd hq1 hq2 fun x =>
      ((hp1 x).symm.trans (hp2 x)))

/-- **C5.** For a duplicate-free roster of `N` players, candidate
generation returns exactly `3 * C(N,4)` matches, pairwise distinct, each
canonical and made of four pairwise distinct players split into two
disjoint teams. -/
theorem C5_candidate_generation (players : List Player) (hnd : players.Nodup)
    (_h4 : 4 ≤ players.length) (_h8 : players.length ≤ 8) :
    (generate_candidate_matches players).length = 3 * Nat.choose players.length 4 ∧
    (generate_candidate_matches players).Nodup ∧
    ∀ m ∈ generate_candidate_matches players,
      m.players.Nodup ∧ normalize_match m.a m.b = m := by
  have hflat := candidates_flat_nodup hnd
  have hgen : generate_candidate_matches players =
      (quartets players).flatMap partitionsOf := by
    unfold generate_candidate_matches
    exact dedupKeepFirst_eq_self hflat
  refine ⟨?_, ?_, ?_⟩
  · rw [hgen, List.length_flatMap]
    have hmap : (quartets players).map (List.length ∘ partitionsOf) =
        (quartets players).map fun _ => 3 := by
      refine List.map_congr_left ?_
      intro q hq
      obtain ⟨a, b, c, d, rfl⟩ := quartet_shape hq
      have hqnd : ([a, b, c, d] : List Player).Nodup :=
        hnd.sublist (List.mem_sublistsLen.mp hq).1
      obtain ⟨⟨hab, hac, had⟩, ⟨hbc, hbd⟩, hcd⟩ := nodup_four_iff.mp hqnd
      show (all_team_partitions_of_four a b c d).length = 3
      rw [all_team_partitions_eq hab hac had hbc hbd hcd]
      rfl
    rw [hmap, List.map_const', List.sum_replicate, smul_eq_mul]
    unfold quartets
    rw [List.length_sublistsLen]
    ring
  · rw [hgen]
    exact hflat
  · intro m hm
    rw [hgen, List.mem_flatMap] at hm
    obtain ⟨q, hq, hmq⟩ := hm
    obtain ⟨a, b, c, d, rfl⟩ := quartet_shape hq
    have hqnd : ([a, b, c, d] : List Player).Nodup :=
      hnd.sublist (List.mem_sublistsLen.mp hq).1
    obtain ⟨⟨hab, hac, had⟩, ⟨hbc, hbd⟩, hcd⟩ := nodup_four_iff.mp hqnd
    exact ⟨mem_atp_nodup hab hac had hbc hbd hcd hmq, mem_atp_canonical hmq⟩

/-- Witness for C5 on the concrete roster `["A","B","C","D"]`. -/
theorem C5_candidate_generation_witness :
    (generate_candidate_matches ["A", "B", "C", "D"]).length =
        3 * Nat.choose (["A", "B", "C", "D"] : List Player).length 4 ∧
    (generate_candidate_matches ["A", "B", "C", "D"]).Nodup ∧
    ∀ m ∈ generate_candidate_matches ["A", "B", "C", "D"],
      m.players.Nodup ∧ normalize_match m.a m.b = m :=
  C5_candidate_generation ["A", "B", "C", "D"] (by decide) (by decide) (by decide)

/-- Witness for C3 at `N = 6`. -/
theorem C3_imperfect_match_count_witness :
    (choose_match_count 6).2 = false ∧
    (choose_match_count 6).1 % base 6 = 0 ∧
    min_for_teammates 6 ≤ (choose_match_count 6).1 ∧
    (∀ k, k % base 6 = 0 → min_for_teammates 6 ≤ k → (choose_match_count 6).1 ≤ k) ∧
    choose_match_count 6 = (9, false) :=
  C3_imperfect_match_count 6 (by decide) (by decide) (by decide)

/-! Lemmas decomposing the scorer's interleaved loop state. -/

/-- The rest accumulator's streak is independent of the accumulated
penalty, and the penalty shifts additively. -/
theorem restFold_shift (l : List Bool) :
    ∀ (k : ℕ) (q : ℚ),
      l.foldl restStep (k, q) =
        ((l.foldl restStep (k, 0)).1, q + (l.foldl restStep (k, 0)).2) := by
  induction l with
  | nil =>
    intro k q
    simp
  | cons b l ih =>
    intro k q
    rw [List.foldl_cons, List.foldl_cons]
    cases b with
    | false =>
      show l.foldl restStep (0, q) = _
      have h0 : restStep (k, 0) false = (0, 0) := rfl
      rw [h0, ih 0 q]
    | true =>
      have ht : ∀ q' : ℚ, restStep (k, q') true =
          (k + 1, if 2 ≤ k + 1 then q' + (((k + 1 : ℕ) : ℚ) - 1) else q') := by
        intro q'
        rfl
      rw [ht q, ht 0]
      by_cases hk : 2 ≤ k + 1
      · rw [if_pos hk, if_pos hk, ih _ (q + (((k + 1 : ℕ) : ℚ) - 1)), ih _ (0 + (((k + 1 : ℕ) : ℚ) - 1))]
        refine Prod.ext rfl ?_
        dsimp only
        ring
      · rw [if_neg hk, if_neg hk, ih _ q]

theorem sum_map_add {α : Type*} (l : List α) (f g : α → ℚ) :
    (l.map fun x => f x + g x).sum = (l.map f).sum + (l.map g).sum := by
  induction l with
  | nil => simp
  | cons x l ih =>
    simp only [List.map_cons, List.sum_cons, ih]
    ring

theorem sum_map_sub {α : Type*} (l : List α) (f g : α → ℚ) :
    (l.map fun x => f x - g x).sum = (l.map f).sum - (l.map g).sum := by
  induction l with
  | nil => simp
  | cons x l ih =>
    simp only [List.map_cons, List.sum_cons, ih]
    ring

/-- The streak component of the rest accumulator does not depend on the
initial penalty. -/
theorem restFold_fst (l : List Bool) (k : ℕ) (q : ℚ) :
    (l.foldl restStep (k, q)).1 = (l.foldl restStep (k, 0)).1 := by
  rw [restFold_shift]

theorem playsOf_cons (m : Match) (ms : List Match) (p : Player) :
    playsOf (m :: ms) p = (if p ∈ m.players then 1 else 0) + playsOf ms p := by
  unfold playsOf
  rw [List.filter_cons]
  by_cases h : p ∈ m.players <;> simp [h] <;> omega

/-- Effect of one match scan on the play counters. -/
theorem scanMatch_plays (m : Match) :
    ∀ players : List Player, players.Nodup → ∀ (st : ScanState) (p : Player),
      (scanMatch players st m).plays p =
        if p ∈ players ∧ p ∈ m.players then st.plays p + 1 else st.plays p := by
  intro players
  induction players with
  | nil =>
    intro _ st p
    simp [scanMatch]
  | cons q ps ih =>
    intro hnd st p
    obtain ⟨hq, hps⟩ := List.nodup_cons.mp hnd
    rw [show scanMatch (q :: ps) st m = scanMatch ps (scanPlayer m st q) m from rfl]
    rw [ih hps]
    by_cases hpq : p = q
    · subst hpq
      have hnps : ¬ (p ∈ ps ∧ p ∈ m.players) := fun h => hq h.1
      rw [if_neg hnps]
      by_cases hpm : p ∈ m.players
      · rw [if_pos ⟨List.mem_cons_self p ps, hpm⟩]
        simp [scanPlayer, hpm]
      · rw [if_neg (fun h => hpm h.2)]
        simp [scanPlayer, hpm]
    · have hplays : (scanPlayer m st q).plays p = st.plays p := by
        unfold scanPlayer
        by_cases hqm : q ∈ m.players <;>
          simp [hqm, Function.update_noteq hpq]
      rw [hplays]
      by_cases hpps : p ∈ ps
      · have : p ∈ q :: ps := List.mem_cons_of_mem q hpps
        by_cases hpm : p ∈ m.players
        · rw [if_pos ⟨hpps, hpm⟩, if_pos ⟨this, hpm⟩]
        · rw [if_neg (fun h => hpm h.2), if_neg (fun h => hpm h.2)]
      · have : p ∉ q :: ps := by
          rw [List.mem_cons]
          rintro (h | h)
          · exact hpq h
          · exact hpps h
        rw [if_neg (fun h => hpps h.1), if_neg (fun h => this h.1)]

/-- Effect of one match scan on the rest streaks. -/
theorem scanMatch_streak (m : Match) :
    ∀ players : List Player, players.Nodup → ∀ (st : ScanState) (p : Player),
      (scanMatch players st m).streak p =
        if p ∈ players then (if p ∈ m.players then 0 else st.streak p + 1)
        else st.streak p := by
  intro players
  induction players with
  | nil =>
    intro _ st p
    simp [scanMatch]
  | cons q ps ih =>
    intro hnd st p
    obtain ⟨hq, hps⟩ := List.nodup_cons.mp hnd
    rw [show scanMatch (q :: ps) st m = scanMatch ps (scanPlayer m st q) m from rfl]
    rw [ih hps]
    by_cases hpq : p = q
    · subst hpq
      rw [if_neg (fun h => hq h), if_pos (List.mem_cons_self p ps)]
      by_cases hpm : p ∈ m.players <;> simp [scanPlayer, hpm]
    · have hstreak : (scanPlayer m st q).streak p = st.streak p := by
        unfold scanPlayer
        by_cases hqm : q ∈ m.players <;>
          simp [hqm, Function.update_noteq hpq]
      rw [hstreak]
      by_cases hpps : p ∈ ps
      · rw [if_pos hpps, if_pos (List.mem_cons_of_mem q hpps)]
      · have : p ∉ q :: ps := by
          rw [List.mem_cons]
          rintro (h | h)
          · exact hpq h
          · exact hpps h
        rw [if_neg hpps, if_neg this]

/-- Effect of one match scan on the accumulated rest penalty. -/
theorem scanMatch_pen (m : Match) :
    ∀ players : List Player, players.Nodup → ∀ st : ScanState,
      (scanMatch players st m).pen =
        st.pen + (players.map fun p =>
          if p ∈ m.players then 0
          else if 2 ≤ st.streak p + 1 then (((st.streak p + 1 : ℕ) : ℚ) - 1)
          else 0).sum := by
  intro players
  induction players with
  | nil =>
    intro _ st
    simp [scanMatch]
  | cons q ps ih =>
    intro hnd st
    obtain ⟨hq, hps⟩ := List.nodup_cons.mp hnd
    rw [show scanMatch (q :: ps) st m = scanMatch ps (scanPlayer m st q) m from rfl]
    rw [ih hps]
    have hstreak : ∀ p ∈ ps, (scanPlayer m st q).streak p = st.streak p := by
      intro p hp
      have hpq : p ≠ q := fun h => hq (h ▸ hp)
      unfold scanPlayer
      by_cases hqm : q ∈ m.players <;> simp [hqm, Function.update_noteq hpq]
    have hmap : (ps.map fun p =>
        if p ∈ m.players then 0
        else if 2 ≤ (scanPlayer m st q).streak p + 1 then
          ((((scanPlayer m st q).streak p + 1 : ℕ) : ℚ) - 1)
        else 0) =
        ps.map fun p =>
          if p ∈ m.players then 0
          else if 2 ≤ st.streak p + 1 then (((st.streak p + 1 : ℕ) : ℚ) - 1)
          else 0 := by
      refine List.map_congr_left ?_
      intro p hp
      rw [hstreak p hp]
    rw [hmap]
    have hpen : (scanPlayer m st q).pen =
        st.pen + (if q ∈ m.players then 0
          else if 2 ≤ st.streak q + 1 then (((st.streak q + 1 : ℕ) : ℚ) - 1)
          else 0) := by
      unfold scanPlayer
      by_cases hqm : q ∈ m.players
      · simp [hqm]
      · by_cases hk : 2 ≤ st.streak q + 1 <;> simp [hqm, hk]
    rw [hpen]
    simp only [List.map_cons, List.sum_cons]
    ring

/-- The play counters of the full scan count the matches played. -/
theorem scanAll_plays (players : List Player) (hnd : players.Nodup) :
    ∀ (schedule : List Match) (st : ScanState) (p : Player), p ∈ players →
      (schedule.foldl (scanMatch players) st).plays p =
        st.plays p + playsOf schedule p := by
  intro schedule
  induction schedule with
  | nil =>
    intro st p _
    simp [playsOf]
  | cons m ms ih =>
    intro st p hp
    rw [List.foldl_cons, ih _ p hp, scanMatch_plays m players hnd st p, playsOf_cons]
    by_cases hpm : p ∈ m.players
    · rw [if_pos ⟨hp, hpm⟩, if_pos hpm]
      omega
    · rw [if_neg (fun h => hpm h.2), if_neg hpm]
      omega

/-- The rest streaks of the full scan follow the per-participant
absence accumulator. -/
theorem scanAll_streak (players : List Player) (hnd : players.Nodup) :
    ∀ (schedule : List Match) (st : ScanState) (p : Player), p ∈ players →
      (schedule.foldl (scanMatch players) st).streak p =
        ((absentIn schedule p).foldl restStep (st.streak p, 0)).1 := by
  intro schedule
  induction schedule with
  | nil =>
    intro st p _
    simp [absentIn]
  | cons m ms ih =>
    intro st p hp
    rw [List.foldl_cons, ih _ p hp, scanMatch_streak m players hnd st p, if_pos hp]
    have habs : absentIn (m :: ms) p = decide (p ∉ m.players) :: absentIn ms p := rfl
    rw [habs, List.foldl_cons]
    by_cases hpm : p ∈ m.players
    · have hb : decide (p ∉ m.players) = false := by simp [hpm]
      rw [hb, if_pos hpm]
      have h0 : restStep (st.streak p, 0) false = (0, 0) := rfl
      rw [h0]
    · have hb : decide (p ∉ m.players) = true := by simp [hpm]
      rw [hb, if_neg hpm]
      have h1 : restStep (st.streak p, 0) true =
          (st.streak p + 1,
           if 2 ≤ st.streak p + 1 then 0 + (((st.streak p + 1 : ℕ) : ℚ) - 1) else 0) := rfl
      rw [h1]
      conv_rhs => rw [restFold_fst]

/-- The accumulated rest penalty of the full scan is the sum of the
per-participant accumulators. -/
theorem scanAll_pen (players : List Player) (hnd : players.Nodup) :
    ∀ (schedule : List Match) (st : ScanState),
      (schedule.foldl (scanMatch players) st).pen =
        st.pen + (players.map fun p =>
          ((absentIn schedule p).foldl restStep (st.streak p, 0)).2).sum := by
  intro schedule
  induction schedule with
  | nil =>
    intro st
    simp [absentIn]
  | cons m ms ih =>
    intro st
    rw [List.foldl_cons, ih _, scanMatch_pen m players hnd st]
    have hmap : (players.map fun p =>
        ((absentIn ms p).foldl restStep ((scanMatch players st m).streak p, 0)).2) =
        players.map fun p =>
          ((absentIn (m :: ms) p).foldl restStep (st.streak p, 0)).2 -
          (if p ∈ m.players then 0
           else if 2 ≤ st.streak p + 1 then (((st.streak p + 1 : ℕ) : ℚ) - 1) else 0) := by
      refine List.map_congr_left ?_
      intro p hp
      rw [scanMatch_streak m players hnd st p, if_pos hp]
      have habs : absentIn (m :: ms) p = decide (p ∉ m.players) :: absentIn ms p := rfl
      rw [habs, List.foldl_cons]
      by_cases hpm : p ∈ m.players
      · have hb : decide (p ∉ m.players) = false := by simp [hpm]
        rw [hb, if_pos hpm, if_pos hpm]
        have h0 : restStep (st.streak p, 0) false = (0, 0) := rfl
        rw [h0]
        ring
      · have hb : decide (p ∉ m.players) = true := by simp [hpm]
        rw [hb, if_neg hpm, if_neg hpm]
        have h1 : restStep (st.streak p, 0) true =
            (st.streak p + 1,
             if 2 ≤ st.streak p + 1 then 0 + (((st.streak p + 1 : ℕ) : ℚ) - 1) else 0) := rfl
        rw [h1]
        conv_rhs => rw [restFold_shift]
        by_cases hk : 2 ≤ st.streak p + 1
        · rw [if_pos hk, if_pos hk]
          dsimp only
          ring
        · rw [if_neg hk, if_neg hk]
          dsimp only
          ring
    rw [hmap, sum_map_sub]
    ring

/-- Splitting the `(missing, deviation, repeats)` accumulation loop into
its three independent sums. -/
theorem pairStep_fold (tk : List (Player × Player)) (pm : Bool) :
    ∀ (pairs : List (Player × Player)) (acc : ℕ × ℕ × ℕ),
      pairs.foldl (pairStep tk pm) acc =
        (acc.1 + (pairs.filter fun pk => decide (tk.count pk = 0)).length,
         acc.2.1 + (if pm then (pairs.map fun pk => ((tk.count pk : ℤ) - 1).natAbs).sum else 0),
         acc.2.2 + (pairs.map fun pk => tk.count pk - 1).sum) := by
  intro pairs
  induction pairs with
  | nil =>
    intro acc
    simp
  | cons pk l ih =>
    intro acc
    rw [List.foldl_cons, ih]
    refine Prod.ext ?_ (Prod.ext ?_ ?_)
    · show (pairStep tk pm acc pk).1 + _ = _
      rw [List.filter_cons]
      unfold pairStep
      by_cases h : tk.count pk = 0 <;> simp [h] <;> omega
    · show (pairStep tk pm acc pk).2.1 + _ = _
      unfold pairStep
      by_cases hpm : pm <;> simp [hpm] <;> omega
    · show (pairStep tk pm acc pk).2.2 + _ = _
      unfold pairStep
      simp
      omega

/-- Closed form of the rest accumulator over a pure absence run. -/
theorem restFold_replicate : ∀ L : ℕ,
    ((List.replicate L true).foldl restStep (0, 0)).1 = L ∧
    ((List.replicate L true).foldl restStep ((0 : ℕ), (0 : ℚ))).2 =
      (L : ℚ) * ((L : ℚ) - 1) / 2 := by
  have hr1 : ∀ acc : ℕ × ℚ, (restStep acc true).1 = acc.1 + 1 := fun _ => rfl
  have hr2 : ∀ acc : ℕ × ℚ, (restStep acc true).2 =
      if 2 ≤ acc.1 + 1 then acc.2 + (((acc.1 + 1 : ℕ) : ℚ) - 1) else acc.2 :=
    fun _ => rfl
  intro L
  induction L with
  | zero => simp
  | succ n ih =>
    obtain ⟨h1, h2⟩ := ih
    rw [List.replicate_succ', List.foldl_append]
    constructor
    · show (restStep _ true).1 = n + 1
      rw [hr1, h1]
    · show (restStep _ true).2 = _
      rw [hr2, h1, h2]
      rcases n with _ | m
      · norm_num
      · rw [if_pos (by omega)]
        push_cast
        ring

/-- **C4.** `score_schedule` computes exactly the weighted sum
`10·variance + 25·missing² + 6·teammate-repeats + 2·opponent-repeats +
1.2·rest-penalty`, plus `40·deviation-from-one` when `perfect_mode`,
where the rest penalty accumulates `k − 1` each time a participant's
absence streak reaches `k ≥ 2` — so a pure absence run of length `L`
contributes `1 + 2 + ⋯ + (L−1) = L(L−1)/2`. -/
theorem C4_score_formula (schedule : List Match) (players : List Player) (pm : Bool)
    (hnd : players.Nodup) :
    (score_schedule schedule players pm =
      10 * play_variance schedule players +
      25 * (missing_pairs schedule players : ℚ) ^ 2 +
      6 * (teammate_repeats schedule players : ℚ) +
      2 * (opp_repeats_spec schedule : ℚ) +
      1.2 * rest_penalty_spec schedule players +
      (if pm then 40 * (deviation_from_one_spec schedule players : ℚ) else 0)) ∧
    ∀ L : ℕ, restPenalty (List.replicate L true) = (L : ℚ) * ((L : ℚ) - 1) / 2 := by
  constructor
  · have hplays : ∀ p ∈ players,
        (schedule.foldl (scanMatch players) ⟨fun _ => 0, fun _ => 0, 0⟩).plays p =
          playsOf schedule p := by
      intro p hp
      rw [scanAll_plays players hnd schedule _ p hp]
      show 0 + _ = _
      rw [zero_add]
    have hmap1 : (players.map fun p =>
        (schedule.foldl (scanMatch players) ⟨fun _ => 0, fun _ => 0, 0⟩).plays p) =
        players.map fun p => playsOf schedule p :=
      List.map_congr_left hplays
    have hpen : (schedule.foldl (scanMatch players) ⟨fun _ => 0, fun _ => 0, 0⟩).pen =
        rest_penalty_spec schedule players := by
      rw [scanAll_pen players hnd schedule _]
      show 0 + _ = _
      rw [zero_add]
      rfl
    simp only [score_schedule]
    rw [hmap1, hpen, pairStep_fold]
    simp only [play_variance, missing_pairs, teammate_repeats, deviation_from_one_spec,
      opp_repeats_spec, teammateCount, W_PLAY_BALANCE, W_TEAMMATE_MISSING,
      W_TEAMMATE_REPEAT, W_OPP_REPEAT, W_CONSEC_REST, W_PERFECT_DEVIATION]
    cases pm
    · simp only [Bool.false_eq_true, if_false, zero_add, add_zero]
    · simp only [if_true, zero_add]
  · intro L
    unfold restPenalty
    exact (restFold_replicate L).2

/-- **C6.** Determinism: the optimizer's output depends only on the
roster and the (fixed) seed and configuration; the ambient entropy a
run might observe is never consulted, so two independent runs return
identical schedules, match counts and mode flags. -/
theorem C6_determinism (e1 e2 : ℕ) (players : List Player) :
    build_schedule e1 players = build_schedule e2 players := rfl

/-- A `foldl` preserves any invariant its step preserves. -/
theorem foldl_preserves {α β : Type*} (f : β → α → β) (P : β → Prop)
    (h : ∀ b a, P b → P (f b a)) : ∀ (l : List α) (b : β), P b → P (l.foldl f b) := by
  intro l
  induction l with
  | nil =>
    intro b hb
    exact hb
  | cons a l ih =>
    intro b hb
    exact ih (f b a) (h b a hb)

/-- A hill-climb mutation never changes the schedule length. -/
theorem improveStep_length (candidates : List Match) (players : List Player)
    (pm : Bool) (acc : List Match × ℚ × PyRandom) (i : ℕ) :
    (improveStep candidates players pm acc i).1.length = acc.1.length := by
  simp only [improveStep]
  split <;> simp

/-- `improve_schedule` returns a schedule of the same length as its
input. -/
theorem improve_schedule_length (init candidates : List Match)
    (players : List Player) (pm : Bool) (steps : ℕ) (rng : PyRandom) :
    (improve_schedule init candidates players pm steps rng).1.length = init.length := by
  have h := foldl_preserves (improveStep candidates players pm)
    (fun acc => acc.1.length = init.length)
    (fun b a hb => by
      show (improveStep candidates players pm b a).1.length = init.length
      rw [improveStep_length]
      exact hb)
    (List.range steps) (init, score_schedule init players pm, rng) rfl
  simp only [improve_schedule]
  exact h

/-- The random initial schedule has exactly `M` slots. -/
theorem drawInit_length (candidates : List Match) :
    ∀ (k : ℕ) (rng : PyRandom), (drawInit rng candidates k).1.length = k := by
  intro k
  induction k with
  | zero =>
    intro rng
    rfl
  | succ n ih =>
    intro rng
    simp only [drawInit]
    simp [ih]

/-- After any restart the best score is finite. -/
theorem restartStep_some (candidates : List Match) (players : List Player)
    (M : ℕ) (pm : Bool) (acc : List Match × Option ℚ × PyRandom) (i : ℕ) :
    (restartStep candidates players M pm acc i).2.1 ≠ none := by
  simp only [restartStep]
  split_ifs with h
  · simp
  · intro hnone
    apply h
    rw [hnone]
    rfl

set_option maxRecDepth 4096 in
/-- The restart fold always holds a schedule of length `M` once at
least one restart has run. -/
theorem buildFold_length (candidates : List Match) (players : List Player)
    (M : ℕ) (pm : Bool) (rng : PyRandom) (m : ℕ) :
    ((List.range (m + 1)).foldl (restartStep candidates players M pm)
      ([], none, rng)).1.length = M := by
  have hstep : ∀ (b : List Match × Option ℚ × PyRandom) (a : ℕ),
      (b.1.length = M ∨ (b.2.1 = none ∧ b.1 = [])) →
      ((restartStep candidates players M pm b a).1.length = M ∨
       ((restartStep candidates players M pm b a).2.1 = none ∧
        (restartStep candidates players M pm b a).1 = [])) := by
    intro b a hb
    simp only [restartStep]
    split_ifs with h
    · left
      show (improve_schedule _ _ _ _ _ _).1.length = M
      rw [improve_schedule_length, drawInit_length]
    · rcases hb with hb | ⟨hnone, hempty⟩
      · left
        exact hb
      · exfalso
        apply h
        rw [hnone]
        rfl
  have hP := foldl_preserves (restartStep candidates players M pm)
    (fun acc => acc.1.length = M ∨ (acc.2.1 = none ∧ acc.1 = []))
    hstep (List.range (m + 1)) ([], none, rng) (Or.inr ⟨rfl, rfl⟩)
  have hsome : ((List.range (m + 1)).foldl (restartStep candidates players M pm)
      ([], none, rng)).2.1 ≠ none := by
    rw [List.range_succ, List.foldl_append]
    simp only [List.foldl_cons, List.foldl_nil]
    exact restartStep_some candidates players M pm _ m
  rcases hP with h | ⟨hnone, -⟩
  · exact h
  · exact absurd hnone hsome

set_option maxRecDepth 4096 in
/-- **C9.** For every roster of 4–8 players, `build_schedule` returns a
schedule of exactly `M` matches (with `M` and `perfect_mode` exactly as
chosen by `choose_match_count`); in particular it never returns the
empty initial `best_schedule`. -/
theorem C9_build_schedule_total (e : ℕ) (players : List Player)
    (h4 : 4 ≤ players.length) (h8 : players.length ≤ 8) :
    (build_schedule e players).1.length = (choose_match_count players.length).1 ∧
    (build_schedule e players).1 ≠ [] ∧
    (build_schedule e players).2 = choose_match_count players.length := by
  have hM1 : 1 ≤ (choose_match_count players.length).1 := by
    set n := players.length with hn
    interval_cases n <;> decide
  have hlen : (build_schedule e players).1.length =
      (choose_match_count players.length).1 := by
    show ((List.range SEARCH_RESTARTS).foldl
        (restartStep (candidatesAfterSample e players).1 players
          (choose_match_count players.length).1 (choose_match_count players.length).2)
        ([], none, (candidatesAfterSample e players).2)).1.length = _
    rw [show SEARCH_RESTARTS = 179 + 1 from rfl]
    exact buildFold_length _ _ _ _ _ 179
  refine ⟨hlen, ?_, rfl⟩
  intro hempty
  rw [hempty] at hlen
  simp only [List.length_nil] at hlen
  omega

/-- Witness for C9 on the concrete roster `["A","B","C","D"]`. -/
theorem C9_build_schedule_total_witness :
    (build_schedule 0 ["A", "B", "C", "D"]).1.length =
        (choose_match_count (["A", "B", "C", "D"] : List Player).length).1 ∧
    (build_schedule 0 ["A", "B", "C", "D"]).1 ≠ [] ∧
    (build_schedule 0 ["A", "B", "C", "D"]).2 =
        choose_match_count (["A", "B", "C", "D"] : List Player).length :=
  C9_build_schedule_total 0 ["A", "B", "C", "D"] (by decide) (by decide)

/-- Each quartet contributes at most its three raw partitions. -/
theorem partitionsOf_length_le (q : List Player) : (partitionsOf q).length ≤ 3 := by
  unfold partitionsOf
  split
  · show (all_team_partitions_of_four _ _ _ _).length ≤ 3
    unfold all_team_partitions_of_four
    refine le_trans (dedupKeepFirst_length_le _) ?_
    simp
  · simp

/-- With at most 8 players the candidate universe has at most 210
matches. -/
theorem generate_length_le (players : List Player) (h8 : players.length ≤ 8) :
    (generate_candidate_matches players).length ≤ 210 := by
  unfold generate_candidate_matches
  refine le_trans (dedupKeepFirst_length_le _) ?_
  rw [List.length_flatMap]
  have h1 : ((quartets players).map (List.length ∘ partitionsOf)).sum ≤
      ((quartets players).map fun _ => 3).sum := by
    apply List.sum_le_sum
    intro q hq
    exact partitionsOf_length_le q
  refine le_trans h1 ?_
  rw [List.map_const', List.sum_replicate, smul_eq_mul]
  unfold quartets
  rw [List.length_sublistsLen]
  have hch := Nat.choose_le_choose 4 h8
  have h70 : Nat.choose 8 4 = 70 := by decide
  omega

/-- **C10.** For rosters of at most 8 players the candidate universe
never exceeds `3·C(8,4) = 210 < CANDIDATE_SAMPLE = 1200`, so the
downsampling branch of `build_schedule` is never taken: the restart
loop always searches the full candidate universe with the untouched
seeded generator. -/
theorem C10_no_downsampling (e : ℕ) (players : List Player)
    (h8 : players.length ≤ 8) :
    (generate_candidate_matches players).length ≤ 210 ∧
    (210 : ℕ) = 3 * Nat.choose 8 4 ∧
    210 < CANDIDATE_SAMPLE ∧
    candidatesAfterSample e players =
      (generate_candidate_matches players, Random_new e RANDOM_SEED) := by
  have hle := generate_length_le players h8
  refine ⟨hle, by decide, by decide, ?_⟩
  simp only [candidatesAfterSample]
  rw [if_neg]
  rw [show CANDIDATE_SAMPLE = 1200 from rfl]
  omega

/-- Witness for C10 on the concrete roster `["A","B","C","D"]`. -/
theorem C10_no_downsampling_witness :
    (generate_candidate_matches ["A", "B", "C", "D"]).length ≤ 210 ∧
    (210 : ℕ) = 3 * Nat.choose 8 4 ∧
    210 < CANDIDATE_SAMPLE ∧
    candidatesAfterSample 0 ["A", "B", "C", "D"] =
      (generate_candidate_matches ["A", "B", "C", "D"], Random_new 0 RANDOM_SEED) :=
  C10_no_downsampling 0 ["A", "B", "C", "D"] (by decide)

/-- Witness for C4 on a concrete roster and schedule. -/
theorem C4_score_formula_witness :
    (score_schedule [] ["A", "B", "C", "D"] true =
      10 * play_variance [] ["A", "B", "C", "D"] +
      25 * (missing_pairs [] ["A", "B", "C", "D"] : ℚ) ^ 2 +
      6 * (teammate_repeats [] ["A", "B", "C", "D"] : ℚ) +
      2 * (opp_repeats_spec [] : ℚ) +
      1.2 * rest_penalty_spec [] ["A", "B", "C", "D"] +
      (if true then 40 * (deviation_from_one_spec [] ["A", "B", "C", "D"] : ℚ) else 0)) ∧
    ∀ L : ℕ, restPenalty (List.replicate L true) = (L : ℚ) * ((L : ℚ) - 1) / 2 :=
  C4_score_formula [] ["A", "B", "C", "D"] true (by decide)

end Padel
